import Mathlib

/-!
Verification of the character-level GPT demo notebook
(`mingpt-demo/play_char.ipynb`).

The notebook defines `CharDataset`, which turns a text corpus into
fixed-length integer-token windows with next-token targets.  We embed it
shallowly: the corpus is a `List Char`, the Python dict built by
`enumerate` becomes an index-lookup function returning `Option ℕ`
(a missing key, Python's `KeyError`, is `none`), and slicing with
truncation becomes `drop`/`take`.
-/

namespace MinGPT

/-- First index of `c` in a list, or `none` when absent.  This is the
lookup semantics of the Python dict `{ch: i for i, ch in enumerate(chars)}`
(over a duplicate-free `chars` every key maps to its unique index). -/
def dictIdx (c : Char) : List Char → Option ℕ
  | [] => none
  | a :: l => if a = c then some 0 else (dictIdx c l).map (· + 1)

/-- The dataset object built by `CharDataset.__init__`. -/
structure CharDataset where
  stoi : Char → Option ℕ
  itos : ℕ → Option Char
  block_size : ℕ
  vocab_size : ℕ
  data : List Char

/-- The sorted duplicate-free character list
`chars = sorted(list(set(data)))` of `CharDataset.__init__`.  `set`
keeps one copy of each character and `sorted` orders them by code
point, so the result is the sorted deduplication of the corpus. -/
def sortedChars (data : List Char) : List Char :=
  (data.dedup).insertionSort (· ≤ ·)

theorem mem_sortedChars {data : List Char} {c : Char} :
    c ∈ sortedChars data ↔ c ∈ data := by
  rw [sortedChars, (List.perm_insertionSort (· ≤ ·) data.dedup).mem_iff,
    List.mem_dedup]

theorem sortedChars_nodup (data : List Char) : (sortedChars data).Nodup :=
  (List.perm_insertionSort (· ≤ ·) data.dedup).nodup_iff.mpr
    (List.nodup_dedup data)

theorem sortedChars_length (data : List Char) :
    (sortedChars data).length = data.toFinset.card := by
  rw [sortedChars, (List.perm_insertionSort (· ≤ ·) data.dedup).length_eq,
    List.card_toFinset]

/-- `CharDataset.__init__`: `chars = sorted(list(set(data)))`, then the
two enumeration dicts, `vocab_size = len(chars)`. -/
def CharDataset.init (data : List Char) (block_size : ℕ) : CharDataset :=
  let chars : List Char := sortedChars data
  { stoi := fun c => dictIdx c chars
    itos := fun i => chars[i]?
    block_size := block_size
    vocab_size := chars.length
    data := data }

/-- `CharDataset.__len__`: `len(self.data) - self.block_size`, a Python
`int`, which can be negative; hence `ℤ`. -/
def CharDataset.len (d : CharDataset) : ℤ :=
  (d.data.length : ℤ) - (d.block_size : ℤ)

/-- Encoding of the list comprehension `[self.stoi[s] for s in chunk]`:
the first missing key raises `KeyError`, modelled as `none`. -/
def encodeChunk (stoi : Char → Option ℕ) : List Char → Option (List ℕ)
  | [] => some []
  | c :: cs =>
    match stoi c with
    | none => none
    | some i =>
      match encodeChunk stoi cs with
      | none => none
      | some is => some (i :: is)

/-- `CharDataset.__getitem__`: slice a `(block_size + 1)`-character chunk
(Python slicing truncates at the corpus end), encode it, and return
`(dix[:-1], dix[1:])`. -/
def CharDataset.getitem (d : CharDataset) (idx : ℕ) :
    Option (List ℕ × List ℕ) :=
  let chunk := (d.data.drop idx).take (d.block_size + 1)
  match encodeChunk d.stoi chunk with
  | none => none
  | some dix => some (dix.dropLast, dix.drop 1)

/-- `__getitem__` as a state-passing computation over the dataset object,
mirroring the method body: it only ever reads fields of `self`. -/
def CharDataset.getitemM (idx : ℕ) :
    StateM CharDataset (Option (List ℕ × List ℕ)) := do
  let d ← get
  let chunk := (d.data.drop idx).take (d.block_size + 1)
  match encodeChunk d.stoi chunk with
  | none => pure none
  | some dix => pure (some (dix.dropLast, dix.drop 1))

/-! ### Lookup lemmas for `dictIdx` -/

theorem dictIdx_of_mem {c : Char} {l : List Char} (h : c ∈ l) :
    ∃ n, dictIdx c l = some n ∧ l[n]? = some c := by
  induction l with
  | nil => cases h
  | cons a l ih =>
    by_cases hac : a = c
    · exact ⟨0, by simp [dictIdx, hac], by simp [hac]⟩
    · have hc : c ∈ l := by
        rcases List.mem_cons.mp h with h1 | h1
        · exact absurd h1.symm hac
        · exact h1
      obtain ⟨n, hn, hget⟩ := ih hc
      exact ⟨n + 1, by simp [dictIdx, hac, hn], by simpa using hget⟩

theorem dictIdx_isSome_of_mem {c : Char} {l : List Char} (h : c ∈ l) :
    (dictIdx c l).isSome := by
  obtain ⟨n, hn, _⟩ := dictIdx_of_mem h
  simp [hn]

theorem dictIdx_lt_length {c : Char} {l : List Char} {n : ℕ}
    (h : dictIdx c l = some n) : n < l.length := by
  induction l generalizing n with
  | nil => simp [dictIdx] at h
  | cons a l ih =>
    by_cases hac : a = c
    · simp [dictIdx, hac] at h
      simp [List.length_cons]
      omega
    · simp [dictIdx, hac] at h
      obtain ⟨m, hm, hmn⟩ := h
      have := ih hm
      simp [List.length_cons]
      omega

theorem dictIdx_getElem {c : Char} {l : List Char} {n : ℕ}
    (h : dictIdx c l = some n) : l[n]? = some c := by
  induction l generalizing n with
  | nil => simp [dictIdx] at h
  | cons a l ih =>
    by_cases hac : a = c
    · simp [dictIdx, hac] at h
      simp [← h, hac]
    · simp [dictIdx, hac] at h
      obtain ⟨m, hm, hmn⟩ := h
      have := ih hm
      simp [← hmn]
      simpa using this

theorem dictIdx_of_getElem {l : List Char} (hnd : l.Nodup) {n : ℕ} {c : Char}
    (h : l[n]? = some c) : dictIdx c l = some n := by
  induction l generalizing n with
  | nil => simp at h
  | cons a l ih =>
    rcases n with _ | m
    · simp at h
      simp [dictIdx, h]
    · simp at h
      have hmem : c ∈ l := by
        have := List.getElem?_eq_some_iff.mp h
        obtain ⟨hlt, hc⟩ := this
        exact hc ▸ List.getElem_mem _
      have hac : ¬ a = c := by
        intro hEq
        exact (List.nodup_cons.mp hnd).1 (hEq ▸ hmem)
      have := ih (List.nodup_cons.mp hnd).2 h
      simp [dictIdx, hac, this]

/-! ### Encoding lemmas -/

/-- When every character of the chunk has a token, the encoding succeeds
and is the indexwise image of the chunk. -/
theorem encodeChunk_spec (f : Char → Option ℕ) (l : List Char)
    (h : ∀ c ∈ l, (f c).isSome) :
    ∃ out, encodeChunk f l = some out ∧ out.length = l.length ∧
      ∀ n : ℕ, (l[n]?).bind f = out[n]? := by
  induction l with
  | nil => exact ⟨[], rfl, rfl, by intro n; simp⟩
  | cons c cs ih =>
    have hc : (f c).isSome := h c (List.mem_cons_self c cs)
    obtain ⟨k, hk⟩ := Option.isSome_iff_exists.mp hc
    obtain ⟨out, hout, hlen, hidx⟩ :=
      ih (fun a ha => h a (List.mem_cons_of_mem c ha))
    refine ⟨k :: out, ?_, by simp [hlen], ?_⟩
    · simp [encodeChunk, hk, hout]
    · intro n
      rcases n with _ | m
      · simp [hk]
      · simpa using hidx m

/-- Every character of the corpus is a key of `stoi` in the dataset
built from that corpus, with a token below `vocab_size`, and `itos`
inverts it. -/
theorem init_stoi_of_mem (corpus : List Char) (bs : ℕ) {c : Char}
    (h : c ∈ corpus) :
    ∃ i, (CharDataset.init corpus bs).stoi c = some i ∧
      i < (CharDataset.init corpus bs).vocab_size ∧
      (CharDataset.init corpus bs).itos i = some c := by
  obtain ⟨n, hn, hget⟩ := dictIdx_of_mem (mem_sortedChars.mpr h)
  exact ⟨n, hn, dictIdx_lt_length hn, hget⟩

/-- Characters of the sliced chunk come from the corpus. -/
theorem mem_of_mem_chunk {corpus : List Char} {idx n : ℕ} {c : Char}
    (h : c ∈ (corpus.drop idx).take n) : c ∈ corpus :=
  List.drop_subset idx corpus (List.take_subset n _ h)

/-- `__getitem__` always returns a pair: the chunk is sliced from the
corpus, so every lookup succeeds, and the result is
`(dix.dropLast, dix.drop 1)` for the indexwise encoding `dix` of the
chunk. -/
theorem getitem_always (corpus : List Char) (bs idx : ℕ) :
    ∃ out : List ℕ,
      encodeChunk (CharDataset.init corpus bs).stoi
        ((corpus.drop idx).take (bs + 1)) = some out ∧
      (CharDataset.init corpus bs).getitem idx =
        some (out.dropLast, out.drop 1) ∧
      out.length = ((corpus.drop idx).take (bs + 1)).length ∧
      ∀ n : ℕ, (((corpus.drop idx).take (bs + 1))[n]?).bind
        (CharDataset.init corpus bs).stoi = out[n]? := by
  have hkeys : ∀ c ∈ (corpus.drop idx).take (bs + 1),
      ((CharDataset.init corpus bs).stoi c).isSome := by
    intro c hc
    obtain ⟨i, hi, _, _⟩ := init_stoi_of_mem corpus bs (mem_of_mem_chunk hc)
    simp [hi]
  obtain ⟨out, hout, hlen, hidx⟩ :=
    encodeChunk_spec (CharDataset.init corpus bs).stoi _ hkeys
  refine ⟨out, hout, ?_, hlen, hidx⟩
  show (CharDataset.init corpus bs).getitem idx = _
  have hdata : (CharDataset.init corpus bs).data = corpus := rfl
  have hbsz : (CharDataset.init corpus bs).block_size = bs := rfl
  simp only [CharDataset.getitem, hdata, hbsz, hout]

/-- The chunk at a fully in-range offset has exactly `bs + 1` characters,
the `n`-th being `corpus[idx + n]`. -/
theorem chunk_length_of_lt {corpus : List Char} {bs idx : ℕ}
    (h : idx + bs < corpus.length) :
    ((corpus.drop idx).take (bs + 1)).length = bs + 1 := by
  simp [List.length_take, List.length_drop]
  omega

theorem chunk_getElem (corpus : List Char) (bs idx : ℕ) {n : ℕ}
    (hn : n < bs + 1) :
    ((corpus.drop idx).take (bs + 1))[n]? = corpus[idx + n]? := by
  rw [List.getElem?_take_of_lt hn, List.getElem?_drop]

/-- C1: for a corpus strictly longer than `block_size` and a valid
offset `i < len(corpus) - block_size`, `CharDataset.__getitem__ i`
returns an (input, target) pair of integer sequences each of exactly
`block_size` length, obtained by encoding `corpus[i : i+block_size+1]`
via the vocabulary mapping: `input[k]` encodes `corpus[i+k]`,
`target[k] = input[k+1]` for `k` in `[0, block_size-2]`, and
`target[block_size-1]` encodes `corpus[i+block_size]`. -/
theorem C1_getitem_window (corpus : List Char) (bs i : ℕ)
    (hbs : bs < corpus.length) (hi : i < corpus.length - bs) :
    ∃ x y : List ℕ,
      (CharDataset.init corpus bs).getitem i = some (x, y) ∧
      x.length = bs ∧ y.length = bs ∧
      (∀ k : ℕ, k < bs →
        (corpus[i + k]?).bind (CharDataset.init corpus bs).stoi = x[k]?) ∧
      (∀ k : ℕ, k + 1 < bs → y[k]? = x[k + 1]?) ∧
      (0 < bs →
        (corpus[i + bs]?).bind (CharDataset.init corpus bs).stoi =
          y[bs - 1]?) := by
  have hrange : i + bs < corpus.length := by omega
  obtain ⟨out, hout, hget, hlen, hidx⟩ := getitem_always corpus bs i
  have holen : out.length = bs + 1 := by
    rw [hlen, chunk_length_of_lt hrange]
  have hxk : ∀ k : ℕ, k < bs → (out.dropLast)[k]? = out[k]? := by
    intro k hk
    rw [List.dropLast_eq_take, List.getElem?_take_of_lt (by omega)]
  have hyk : ∀ k : ℕ, (out.drop 1)[k]? = out[1 + k]? :=
    fun k => List.getElem?_drop out 1 k
  refine ⟨out.dropLast, out.drop 1, hget, ?_, ?_, ?_, ?_, ?_⟩
  · rw [List.length_dropLast, holen]
    omega
  · rw [List.length_drop, holen]
    omega
  · intro k hk
    rw [hxk k hk, ← hidx k, chunk_getElem corpus bs i (by omega)]
  · intro k hk
    rw [hyk k, hxk (k + 1) hk, Nat.add_comm 1 k]
  · intro hpos
    rw [hyk (bs - 1), show 1 + (bs - 1) = bs by omega, ← hidx bs,
      chunk_getElem corpus bs i (by omega)]

/-- Witness for C1 at the corpus "abc" with block size 1 and offset 0. -/
theorem C1_getitem_window_witness :
    (1 < ("abc".toList).length) ∧ (0 < ("abc".toList).length - 1) ∧
    ∃ x y : List ℕ,
      (CharDataset.init "abc".toList 1).getitem 0 = some (x, y) ∧
      x.length = 1 ∧ y.length = 1 ∧
      (∀ k : ℕ, k < 1 →
        (("abc".toList)[0 + k]?).bind
          (CharDataset.init "abc".toList 1).stoi = x[k]?) ∧
      (∀ k : ℕ, k + 1 < 1 → y[k]? = x[k + 1]?) ∧
      (0 < 1 →
        (("abc".toList)[0 + 1]?).bind
          (CharDataset.init "abc".toList 1).stoi = y[1 - 1]?) :=
  ⟨by decide, by decide,
    C1_getitem_window "abc".toList 1 0 (by decide) (by decide)⟩

/-- C2: `CharDataset.__len__` is the corpus length minus `block_size`,
as (possibly negative) integers. -/
theorem C2_len_windows (corpus : List Char) (bs : ℕ) :
    (CharDataset.init corpus bs).len = (corpus.length : ℤ) - (bs : ℤ) := rfl

/-- C3: the vocabulary is a bijection between the distinct characters of
the corpus and `0 .. vocab_size - 1`: `vocab_size` is the number of
distinct characters, `itos` inverts `stoi` on every corpus character,
and `stoi` inverts `itos` on every token below `vocab_size`. -/
theorem C3_vocab_bijection (corpus : List Char) (bs : ℕ) :
    ((CharDataset.init corpus bs).vocab_size = corpus.toFinset.card) ∧
    (∀ c ∈ corpus, ∃ i : ℕ,
      (CharDataset.init corpus bs).stoi c = some i ∧
      i < (CharDataset.init corpus bs).vocab_size ∧
      (CharDataset.init corpus bs).itos i = some c) ∧
    (∀ x : ℕ, x < (CharDataset.init corpus bs).vocab_size →
      ∃ c : Char, (CharDataset.init corpus bs).itos x = some c ∧
        (CharDataset.init corpus bs).stoi c = some x ∧ c ∈ corpus) := by
  refine ⟨?_, fun c hc => init_stoi_of_mem corpus bs hc, ?_⟩
  · show (sortedChars corpus).length = corpus.toFinset.card
    exact sortedChars_length corpus
  · intro x hx
    have hx2 : x < (sortedChars corpus).length := hx
    have hget : (sortedChars corpus)[x]? =
        some ((sortedChars corpus).get ⟨x, hx2⟩) :=
      List.getElem?_eq_some_iff.mpr ⟨hx2, rfl⟩
    refine ⟨(sortedChars corpus).get ⟨x, hx2⟩, hget,
      dictIdx_of_getElem (sortedChars_nodup corpus) hget, ?_⟩
    exact mem_sortedChars.mp (List.get_mem _ _ hx2)

/-- Witness for C3 at the corpus "ab": looking up the character 'b'. -/
theorem C3_vocab_bijection_witness :
    ∃ i : ℕ, (CharDataset.init "ab".toList 3).stoi 'b' = some i ∧
      i < (CharDataset.init "ab".toList 3).vocab_size ∧
      (CharDataset.init "ab".toList 3).itos i = some 'b' :=
  (C3_vocab_bijection "ab".toList 3).2.1 'b' (by decide)

/-- C5: for a valid index, every character of the sliced chunk is a key
of `stoi` (the vocabulary is derived from the same corpus), so the
lookup-failure branch of `__getitem__` is unreachable: it returns a
pair. -/
theorem C5_lookup_total (corpus : List Char) (bs idx : ℕ)
    (_h : idx < corpus.length - bs) :
    (∀ c ∈ (corpus.drop idx).take (bs + 1),
      ∃ i : ℕ, (CharDataset.init corpus bs).stoi c = some i) ∧
    ∃ p : List ℕ × List ℕ,
      (CharDataset.init corpus bs).getitem idx = some p := by
  obtain ⟨out, _, hget, _, _⟩ := getitem_always corpus bs idx
  exact ⟨fun c hc => by
    obtain ⟨i, hi, _, _⟩ := init_stoi_of_mem corpus bs (mem_of_mem_chunk hc)
    exact ⟨i, hi⟩,
    ⟨(out.dropLast, out.drop 1), hget⟩⟩

/-- Witness for C5 at the corpus "abc" with block size 1 and index 0. -/
theorem C5_lookup_total_witness :
    (0 < ("abc".toList).length - 1) ∧
    ((∀ c ∈ (("abc".toList).drop 0).take (1 + 1),
      ∃ i : ℕ, (CharDataset.init "abc".toList 1).stoi c = some i) ∧
    ∃ p : List ℕ × List ℕ,
      (CharDataset.init "abc".toList 1).getitem 0 = some p) :=
  ⟨by decide, C5_lookup_total "abc".toList 1 0 (by decide)⟩

/-- C6: the corpus "hello" with block size 4 yields exactly one window;
its input decodes to "hell" and its target to "ello". -/
theorem C6_hello_window :
    (CharDataset.init "hello".toList 4).len = 1 ∧
    ((CharDataset.init "hello".toList 4).getitem 0).map
      (fun p => (p.1.map (CharDataset.init "hello".toList 4).itos,
                 p.2.map (CharDataset.init "hello".toList 4).itos)) =
      some ("hell".toList.map some, "ello".toList.map some) := by
  decide

/-- C8: `__getitem__` is a pure lookup: run as a state-passing
computation it leaves the dataset object unchanged, its answer is the
functional `getitem`, and a second call on the left-behind state returns
the same pair. -/
theorem C8_getitem_pure (d : CharDataset) (idx : ℕ) :
    (((CharDataset.getitemM idx).run d).2 = d) ∧
    (((CharDataset.getitemM idx).run d).1 = d.getitem idx) ∧
    (((CharDataset.getitemM idx).run
        (((CharDataset.getitemM idx).run d).2)).1 =
      ((CharDataset.getitemM idx).run d).1) := by
  have hrun : (CharDataset.getitemM idx).run d = (d.getitem idx, d) := by
    show (do
      let s ← get
      match encodeChunk s.stoi ((s.data.drop idx).take (s.block_size + 1)) with
      | none => pure none
      | some dix => pure (some (dix.dropLast, dix.drop 1)) :
        StateM CharDataset _).run d = _
    rcases hE : encodeChunk d.stoi ((d.data.drop idx).take (d.block_size + 1))
      with _ | dix <;>
      simp [CharDataset.getitem, StateT.run, get, getThe, MonadStateOf.get,
        StateT.get, bind, StateT.bind, pure, StateT.pure, hE]
  exact ⟨by rw [hrun], by rw [hrun], by rw [hrun, hrun]⟩

/-- C9: indices outside the declared range but still at least two below
the corpus end do not fail: the slice truncates and `__getitem__`
returns input and target of equal length strictly below `block_size`. -/
theorem C9_tail_truncation (corpus : List Char) (bs idx : ℕ)
    (h1 : corpus.length - bs ≤ idx) (h2 : idx + 2 ≤ corpus.length) :
    ∃ x y : List ℕ,
      (CharDataset.init corpus bs).getitem idx = some (x, y) ∧
      x.length = y.length ∧ x.length < bs := by
  obtain ⟨out, _, hget, hlen, _⟩ := getitem_always corpus bs idx
  have hcl : ((corpus.drop idx).take (bs + 1)).length =
      corpus.length - idx := by
    simp [List.length_take, List.length_drop]
    omega
  have holen : out.length = corpus.length - idx := hlen.trans hcl
  refine ⟨out.dropLast, out.drop 1, hget, ?_, ?_⟩
  · rw [List.length_dropLast, List.length_drop]
  · rw [List.length_dropLast, holen]
    omega

/-- Witness for C9 at the corpus "abcde" with block size 4 and index 2. -/
theorem C9_tail_truncation_witness :
    (("abcde".toList).length - 4 ≤ 2) ∧ (2 + 2 ≤ ("abcde".toList).length) ∧
    ∃ x y : List ℕ,
      (CharDataset.init "abcde".toList 4).getitem 2 = some (x, y) ∧
      x.length = y.length ∧ x.length < 4 :=
  ⟨by decide, by decide,
    C9_tail_truncation "abcde".toList 4 2 (by decide) (by decide)⟩

/-- C10: when the corpus is no longer than `block_size`, `__len__` is
non-positive (negative on strict inequality) rather than failing. -/
theorem C10_len_nonpos (corpus : List Char) (bs : ℕ)
    (h : corpus.length ≤ bs) :
    (CharDataset.init corpus bs).len ≤ 0 ∧
    (corpus.length < bs → (CharDataset.init corpus bs).len < 0) := by
  constructor
  · show (corpus.length : ℤ) - (bs : ℤ) ≤ 0
    omega
  · intro hlt
    show (corpus.length : ℤ) - (bs : ℤ) < 0
    omega

/-- Witness for C10 at the corpus "ab" with block size 5. -/
theorem C10_len_nonpos_witness :
    (("ab".toList).length ≤ 5) ∧
    ((CharDataset.init "ab".toList 5).len ≤ 0 ∧
      (("ab".toList).length < 5 → (CharDataset.init "ab".toList 5).len < 0)) :=
  ⟨by decide, C10_len_nonpos "ab".toList 5 (by decide)⟩

/-! ### Sampler

`mingpt.utils.sample` is imported by the notebook but its module is not
part of this repository, so it is modelled from the spec. -/

/-- Sampler configuration: temperature scaling, stochastic sampling vs
arg-max, optional top-k restriction. -/
structure SamplerCfg where
  temperature : ℚ
  doSample : Bool
  topK : Option ℕ

/-- Top-k restriction: a logit survives when fewer than `k` logits are
strictly larger (i.e. it is among the `k` highest, ties kept); all
others are masked out (`none`), giving them zero probability. -/
def maskTopK (k : Option ℕ) (l : List ℚ) : List (Option ℚ) :=
  match k with
  | none => l.map some
  | some k => l.map (fun v =>
      if (l.countP (fun u => decide (v < u))) < k then some v else none)

/-- Normalized exponential over the surviving logits; masked entries get
probability zero.  The exponential is abstracted as a parameter `ex`
(ℚ has no exponential; no claim here depends on its concrete values). -/
def softmaxMasked (ex : ℚ → ℚ) (l : List (Option ℚ)) : List ℚ :=
  let z := (l.filterMap id).foldl (fun acc v => acc + ex v) 0
  l.map (fun o => match o with
    | none => 0
    | some v => ex v / z)

def argmaxAux : List ℚ → ℕ → ℕ → ℚ → ℕ
  | [], _, best, _ => best
  | v :: l, i, best, bv =>
    if bv < v then argmaxAux l (i + 1) i v else argmaxAux l (i + 1) best bv

/-- Index of the (first) largest probability. -/
def argmaxIdx : List ℚ → ℕ
  | [] => 0
  | v :: l => argmaxAux l 1 0 v

/-- Modelled from the spec: one decoding step of `mingpt.utils.sample`
(module not in the repository).  Scale the final-position logits by the
temperature, optionally restrict to the top-k tokens, normalize, then
either draw stochastically (the draw abstracted as `choose`) or take the
arg-max, and append the chosen token. -/
def nextToken (ex : ℚ → ℚ) (choose : List ℚ → ℕ) (cfg : SamplerCfg)
    (lgts : List ℚ) : ℕ :=
  let scaled := lgts.map (fun v => v / cfg.temperature)
  let probs := softmaxMasked ex (maskTopK cfg.topK scaled)
  if cfg.doSample then choose probs else argmaxIdx probs

/-- Modelled from the spec: one loop iteration of `mingpt.utils.sample`:
run the model on the sequence truncated to its last `block_size` tokens
(`model` maps the conditioning sequence to the logits at the final
position) and append the chosen next token. -/
def sampleStep (model : List ℕ → List ℚ) (block_size : ℕ) (ex : ℚ → ℚ)
    (choose : List ℚ → ℕ) (cfg : SamplerCfg) (seq : List ℕ) : List ℕ :=
  let cond := if seq.length ≤ block_size then seq
              else seq.drop (seq.length - block_size)
  seq ++ [nextToken ex choose cfg (model cond)]

/-- Modelled from the spec: the `mingpt.utils.sample` loop (module not
in the repository): starting from the prompt, repeat the decoding step
exactly `steps` times with no early stopping. -/
def sample (model : List ℕ → List ℚ) (block_size : ℕ) (ex : ℚ → ℚ)
    (choose : List ℚ → ℕ) (cfg : SamplerCfg) : ℕ → List ℕ → List ℕ
  | 0, seq => seq
  | n + 1, seq =>
    sample model block_size ex choose cfg n
      (sampleStep model block_size ex choose cfg seq)

/-- C7: the sampler produces a sequence of length prompt length plus the
requested token count: exactly one token is appended per step and there
is no early stopping. -/
theorem C7_sample_length (model : List ℕ → List ℚ) (block_size : ℕ)
    (ex : ℚ → ℚ) (choose : List ℚ → ℕ) (cfg : SamplerCfg) (steps : ℕ)
    (prompt : List ℕ) :
    (sample model block_size ex choose cfg steps prompt).length =
      prompt.length + steps := by
  induction steps generalizing prompt with
  | zero => rfl
  | succ n ih =>
    rw [sample, ih]
    simp [sampleStep]
    omega

/-! ### GPT model

`mingpt.model` is imported by the notebook but its module is not part of
this repository, so the forward pass is modelled from the spec: token
embedding plus positional embedding, `N` stacked blocks each doing
layer-norm, multi-head causal self-attention (a position attends only to
itself and earlier positions, via the triangular mask), residual add,
layer-norm, position-wise feed-forward, residual add; then a final
layer-norm and a linear projection to vocabulary logits.  Scalars are ℚ;
the strictly per-position maps (layer norms, value/output projections,
feed-forward, head projection) and the softmax exponential are abstract
parameters, since the causal-masking claim concerns only which
positions' inputs can flow to an output, not the pointwise arithmetic. -/

/-- One attention head: a score function of query and key vectors, the
softmax exponential surrogate, and the value projection. -/
structure HeadParams (d : ℕ) where
  score : (Fin d → ℚ) → (Fin d → ℚ) → ℚ
  wfn : ℚ → ℚ
  vproj : (Fin d → ℚ) → Fin d → ℚ

/-- One transformer block: pre-attention and pre-MLP layer norms, the
attention heads, the output projection, and the feed-forward map. -/
structure BlockParams (d : ℕ) where
  ln1 : (Fin d → ℚ) → Fin d → ℚ
  ln2 : (Fin d → ℚ) → Fin d → ℚ
  heads : List (HeadParams d)
  oproj : (Fin d → ℚ) → Fin d → ℚ
  mlp : (Fin d → ℚ) → Fin d → ℚ

/-- The whole model: embeddings, the stacked blocks, the final layer
norm and the projection to vocabulary logits. -/
structure GPTParams (d : ℕ) where
  tokEmb : ℕ → Fin d → ℚ
  posEmb : ℕ → Fin d → ℚ
  blocks : List (BlockParams d)
  lnf : (Fin d → ℚ) → Fin d → ℚ
  headProj : (Fin d → ℚ) → ℕ → ℚ

/-- Causally masked attention of one head at position `t`: the softmax
is taken over positions `s ≤ t` only (the triangular mask sends later
positions to zero weight), mixing their value vectors. -/
def headOut {d : ℕ} (h : HeadParams d) (x : ℕ → Fin d → ℚ) (t : ℕ) :
    Fin d → ℚ := fun j =>
  (∑ s ∈ Finset.range (t + 1),
      h.wfn (h.score (x t) (x s)) * h.vproj (x s) j) /
  (∑ s ∈ Finset.range (t + 1), h.wfn (h.score (x t) (x s)))

/-- One block: `x + attn(ln1 x)` then `(· + mlp (ln2 ·))`, heads summed
into the output projection. -/
def blockOut {d : ℕ} (b : BlockParams d) (x : ℕ → Fin d → ℚ) :
    ℕ → Fin d → ℚ :=
  let y := fun s => b.ln1 (x s)
  let xa := fun t j =>
    x t j + b.oproj (fun j2 => (b.heads.map (fun h => headOut h y t j2)).sum) j
  fun t j => xa t j + b.mlp (b.ln2 (xa t)) j

/-- The model's logits at position `t`: embed, fold the blocks, final
layer-norm, project. -/
def logits {d : ℕ} (p : GPTParams d) (toks : ℕ → ℕ) (t : ℕ) : ℕ → ℚ :=
  p.headProj (p.lnf
    ((p.blocks.foldl (fun x b => blockOut b x)
      (fun s j => p.tokEmb (toks s) j + p.posEmb s j)) t))

theorem headOut_causal {d : ℕ} (h : HeadParams d) {x y : ℕ → Fin d → ℚ}
    {t : ℕ} (hxy : ∀ s ≤ t, x s = y s) : headOut h x t = headOut h y t := by
  funext j
  have hx : x t = y t := hxy t le_rfl
  have hnum : ∀ s ∈ Finset.range (t + 1),
      h.wfn (h.score (x t) (x s)) * h.vproj (x s) j =
      h.wfn (h.score (y t) (y s)) * h.vproj (y s) j := by
    intro s hs
    rw [hx, hxy s (Nat.lt_succ_iff.mp (Finset.mem_range.mp hs))]
  have hden : ∀ s ∈ Finset.range (t + 1),
      h.wfn (h.score (x t) (x s)) = h.wfn (h.score (y t) (y s)) := by
    intro s hs
    rw [hx, hxy s (Nat.lt_succ_iff.mp (Finset.mem_range.mp hs))]
  show (∑ s ∈ Finset.range (t + 1), _) / _ = _
  rw [Finset.sum_congr rfl hnum, Finset.sum_congr rfl hden]
  rfl

theorem blockOut_causal {d : ℕ} (b : BlockParams d) {x y : ℕ → Fin d → ℚ}
    {t : ℕ} (hxy : ∀ s ≤ t, x s = y s) :
    ∀ u ≤ t, blockOut b x u = blockOut b y u := by
  intro u hu
  have hln : ∀ s ≤ u, b.ln1 (x s) = b.ln1 (y s) := by
    intro s hs
    rw [hxy s (hs.trans hu)]
  have hattn : ∀ h2 : HeadParams d,
      headOut h2 (fun s => b.ln1 (x s)) u = headOut h2 (fun s => b.ln1 (y s)) u :=
    fun h2 => headOut_causal h2 hln
  have hxa : ∀ j,
      x u j + b.oproj (fun j2 =>
        (b.heads.map (fun h => headOut h (fun s => b.ln1 (x s)) u j2)).sum) j =
      y u j + b.oproj (fun j2 =>
        (b.heads.map (fun h => headOut h (fun s => b.ln1 (y s)) u j2)).sum) j := by
    intro j
    have hmap : (b.heads.map (fun h => headOut h (fun s => b.ln1 (x s)) u)) =
        (b.heads.map (fun h => headOut h (fun s => b.ln1 (y s)) u)) :=
      List.map_congr_left (fun h _ => hattn h)
    rw [hxy u hu]
    congr 2
    funext j2
    have : ((b.heads.map (fun h => headOut h (fun s => b.ln1 (x s)) u)).map
        (fun f => f j2)).sum =
        ((b.heads.map (fun h => headOut h (fun s => b.ln1 (y s)) u)).map
        (fun f => f j2)).sum := by rw [hmap]
    simpa [List.map_map, Function.comp] using this
  funext j
  show (fun t j => _) u j = (fun t j => _) u j
  simp only [blockOut]
  have hxaeq : (fun j => x u j + b.oproj (fun j2 =>
      (b.heads.map (fun h => headOut h (fun s => b.ln1 (x s)) u j2)).sum) j) =
      (fun j => y u j + b.oproj (fun j2 =>
      (b.heads.map (fun h => headOut h (fun s => b.ln1 (y s)) u j2)).sum) j) :=
    funext hxa
  rw [show (fun s => b.ln1 (x s)) = fun s => b.ln1 (x s) from rfl]
  calc x u j + b.oproj (fun j2 =>
        (b.heads.map (fun h => headOut h (fun s => b.ln1 (x s)) u j2)).sum) j +
        b.mlp (b.ln2 (fun j => x u j + b.oproj (fun j2 =>
          (b.heads.map (fun h => headOut h (fun s => b.ln1 (x s)) u j2)).sum) j)) j
      = y u j + b.oproj (fun j2 =>
        (b.heads.map (fun h => headOut h (fun s => b.ln1 (y s)) u j2)).sum) j +
        b.mlp (b.ln2 (fun j => y u j + b.oproj (fun j2 =>
          (b.heads.map (fun h => headOut h (fun s => b.ln1 (y s)) u j2)).sum) j)) j := by
        rw [hxa j, hxaeq]

theorem foldl_blocks_causal {d : ℕ} (bs : List (BlockParams d))
    {x y : ℕ → Fin d → ℚ} {t : ℕ} (hxy : ∀ s ≤ t, x s = y s) :
    ∀ u ≤ t, (bs.foldl (fun x b => blockOut b x) x) u =
      (bs.foldl (fun x b => blockOut b x) y) u := by
  induction bs generalizing x y with
  | nil => exact fun u hu => hxy u hu
  | cons b bs ih =>
    intro u hu
    exact ih (fun s hs => blockOut_causal b hxy s hs) u hu

/-- C4: causal masking — the logits at position `t` are a function only
of the tokens at positions `≤ t`: two token sequences that agree up to
`t` give identical logits at `t`, whatever the parameters. -/
theorem C4_causal_masking {d : ℕ} (p : GPTParams d) (t : ℕ)
    (toks1 toks2 : ℕ → ℕ) (h : ∀ s ≤ t, toks1 s = toks2 s) (v : ℕ) :
    logits p toks1 t v = logits p toks2 t v := by
  have hemb : ∀ s ≤ t,
      (fun j => p.tokEmb (toks1 s) j + p.posEmb s j) =
      (fun j => p.tokEmb (toks2 s) j + p.posEmb s j) := by
    intro s hs
    rw [h s hs]
  show p.headProj (p.lnf _) v = p.headProj (p.lnf _) v
  rw [foldl_blocks_causal p.blocks hemb t le_rfl]

/-- A one-dimensional, one-block, one-head instance used to witness the
causal-masking theorem at a concrete input. -/
def egParams : GPTParams 1 where
  tokEmb := fun v _ => (v : ℚ)
  posEmb := fun t _ => (t : ℚ)
  blocks := [{ ln1 := id, ln2 := id,
               heads := [{ score := fun q k => q 0 * k 0,
                           wfn := fun v => v * v + 1,
                           vproj := id }],
               oproj := id, mlp := id }]
  lnf := id
  headProj := fun x v => x 0 + (v : ℚ)

/-- Witness for C4: the token streams `s ↦ s` and `s ↦ s`-until-2-then-9
agree up to position 2, so the logits at position 2 agree. -/
theorem C4_causal_masking_witness :
    (∀ s ≤ 2, (fun s : ℕ => s) s = (fun s : ℕ => if s ≤ 2 then s else 9) s) ∧
    logits egParams (fun s : ℕ => s) 2 0 =
      logits egParams (fun s : ℕ => if s ≤ 2 then s else 9) 2 0 :=
  ⟨by decide,
    C4_causal_masking egParams 2 (fun s : ℕ => s)
      (fun s : ℕ => if s ≤ 2 then s else 9) (by decide) 0⟩

end MinGPT
